import Mathlib

/-!
Verification development for the hyperschedule course-data server
(`src/hyperschedule/server.py`).  The definitions below are a shallow
embedding of the Python source: Python dicts indexed by course keys become
pairs of a `Finset` domain and a lookup function, Python lists stay lists,
and in-place mutation becomes explicit state passing.  The module
`hyperschedule.libcourse` is imported by the server but is not part of the
sources; the attribute sets and key encoding it provides are modelled from
the spec (see the doc comments on those definitions).
-/

namespace Hyperschedule

/-- Attribute names of a course record.  The identity attributes
(department, courseNumber, courseCodeSuffix, school, section) are the ones
used by `format_course_code`; `sectionNum` stands for the Python key
`"section"` (a Lean keyword).  `title` and `faculty` stand for the tracked
attributes outside the identity tuple. -/
inductive Attr where
  | department
  | courseNumber
  | courseCodeSuffix
  | school
  | sectionNum
  | title
  | faculty
  deriving DecidableEq, Fintype, Repr

/-- A JSON-ish attribute value: course dicts hold strings and integers. -/
inductive Value where
  | s (v : String)
  | n (v : Int)
  deriving DecidableEq, Repr

/-- Python truthiness of a value: an empty string and zero are falsy. -/
def Value.truthy : Value → Bool
  | .s v => v ≠ ""
  | .n v => v ≠ 0

/-- A parsed course object: a record with all attributes present
(Python: a dict with the full attribute set). -/
def Course : Type := Attr → Value

instance : DecidableEq Course := fun f g =>
  Fintype.decidablePiFintype f g

instance : Inhabited Course := ⟨fun _ => Value.s ""⟩

/-- A materialized (possibly partial) course record, as built by
`compute_diff` for removed and modified entries: a dict that may omit
attributes. -/
def MatCourse : Type := Attr → Option Value

instance : DecidableEq MatCourse := fun f g =>
  Fintype.decidablePiFintype f g

/-- Modelled from the spec: `libcourse.COURSE_INDEX_ATTRS`, the identity
attributes forming the identity tuple (spec S3: department, numeric code,
code suffix, organizational unit, section). -/
def COURSE_INDEX_ATTRS : List Attr :=
  [.department, .courseNumber, .courseCodeSuffix, .school, .sectionNum]

/-- Modelled from the spec: `libcourse.COURSE_ATTRS`, the tracked attribute
set, a fixed superset of the identity attributes (spec S3). -/
def COURSE_ATTRS : List Attr :=
  [.department, .courseNumber, .courseCodeSuffix, .school, .sectionNum,
   .title, .faculty]

/-- The tracked attributes as a finite set. -/
def courseAttrsFinset : Finset Attr := COURSE_ATTRS.toFinset

/-- Course identity keys.  Modelled from the spec: the key is a
deterministic encoding of the identity tuple (spec S3); we encode it as the
list of identity-attribute values in `COURSE_INDEX_ATTRS` order. -/
def Key : Type := List Value

instance : DecidableEq Key := by
  unfold Key; infer_instance

/-- Modelled from the spec: `libcourse.course_to_index_key` derives the
identity key from a record's identity attributes. -/
def course_to_index_key (c : Course) : Key :=
  COURSE_INDEX_ATTRS.map c

/-- Modelled from the spec: `libcourse.course_from_index_key` rebuilds a
placeholder record carrying the identity attributes only (spec S4.1: all
other attributes absent). -/
def course_from_index_key (k : Key) : MatCourse :=
  fun a => (COURSE_INDEX_ATTRS.zip k).lookup a

/-- A course index (Python: the dict built by `index_courses`, mapping
identity key to course).  The lookup function is arbitrary outside `dom`. -/
structure Index where
  dom : Finset Key
  get : Key → Course

/-- The empty index. -/
def emptyIndex : Index := ⟨∅, fun _ => default⟩

/-- The attributes of `COURSE_ATTRS` on which two indexed records differ
(the inner loop of `compute_update`, server.py lines 100-105). -/
def changedAttrs (oldI newI : Index) (k : Key) : Finset Attr :=
  courseAttrsFinset.filter (fun a => oldI.get k a ≠ newI.get k a)

/-- An Update Record (the value returned by `compute_update`): added and
removed key sets plus the modified dict, embedded as its key set `modDom`
together with the per-key attribute sets `modAttrs` (arbitrary off
`modDom`). -/
structure UpdateRec where
  added : Finset Key
  removed : Finset Key
  modDom : Finset Key
  modAttrs : Key → Finset Attr

/-- Embedding of `compute_update` (server.py lines 92-110): set differences
for added/removed, and for keys present on both sides the changed tracked
attributes, keys with no changed attributes omitted. -/
def compute_update (oldI newI : Index) : UpdateRec where
  added := newI.dom \ oldI.dom
  removed := oldI.dom \ newI.dom
  modDom := (newI.dom ∩ oldI.dom).filter (fun k => changedAttrs oldI newI k ≠ ∅)
  modAttrs := fun k => changedAttrs oldI newI k

/-- The accumulator state of the replay loop in `compute_diff`
(server.py lines 113-115): the sets `added`, `removed` and the dict
`modified` (domain `modDom`, values `modAttrs`). -/
structure DiffAcc where
  added : Finset Key
  removed : Finset Key
  modDom : Finset Key
  modAttrs : Key → Finset Attr

/-- The empty accumulator (`added = set()`, `removed = set()`,
`modified = {}`). -/
def emptyAcc : DiffAcc := ⟨∅, ∅, ∅, fun _ => ∅⟩

/-- One iteration of the replay loop of `compute_diff` (server.py lines
116-137), i.e. the effect of applying one stored Update Record to the
accumulator.  The three inner loops iterate over the update's modified
dict, added list and removed list; each iteration touches only the entries
of its own key, so the loops are embedded as their aggregate effect on the
sets.  The `assert` statements of the source are invariant checks and do
not alter any state; they are not part of the embedding (the theorems
below exhibit which of the asserted disjointness properties actually
hold). -/
def applyUpdate (A : DiffAcc) (u : UpdateRec) : DiffAcc where
  -- added (lines 123-129, 134-135): the step's added keys that do not
  -- cancel a pending removal join the set; the step's removed keys cancel
  -- pending adds
  added := (A.added ∪ (u.added \ A.removed)) \ u.removed
  -- removed (lines 125-126, 136-137): the step's added keys cancel pending
  -- removals; the step's removed keys that do not cancel a pending add
  -- join the set
  removed := (A.removed \ u.added) ∪
    (u.removed \ (A.added ∪ (u.added \ A.removed)))
  -- the modified dict's key set (lines 118-122, 126-127, 132-133): grows
  -- by the step's modified keys and by re-added keys, shrinks by the
  -- step's removed keys
  modDom := ((A.modDom ∪ u.modDom) ∪ (u.added ∩ A.removed)) \ u.removed
  -- the per-key attribute sets: a re-added key gets the full tracked set
  -- (line 127, overwriting), a modified key gets its accumulated union
  -- (lines 120-122, starting fresh when the dict had no entry)
  modAttrs := fun k =>
    if k ∈ u.added ∩ A.removed then courseAttrsFinset
    else if k ∈ u.modDom then
      (if k ∈ A.modDom then A.modAttrs k else ∅) ∪ u.modAttrs k
    else A.modAttrs k

/-- The replay part of `compute_diff` (server.py lines 112-137): fold the
retained updates whose timestamp is greater than `since` into an
accumulator. -/
def diffAccum (updates : List (Int × UpdateRec)) (since : Int) : DiffAcc :=
  ((updates.filter (fun p => since < p.1)).map (fun p => p.2)).foldl
    applyUpdate emptyAcc

/-- The materialized diff returned by `compute_diff` (server.py lines
138-157): full records for added keys, identity-only placeholders for
removed keys, and partial records for modified keys.  The Python lists are
built by iterating sets, so they are embedded as finite sets. -/
structure DiffResult where
  added : Finset Course
  removed : Finset MatCourse
  modified : Finset MatCourse
  deriving DecidableEq

/-- The partial record built for one modified key (server.py lines
146-152): the identity attributes plus the accumulated changed attributes,
with values read from the current index. -/
def materializeModified (index : Index) (k : Key) (attrs : Finset Attr) :
    MatCourse :=
  fun a =>
    if a ∈ COURSE_INDEX_ATTRS ∨ a ∈ attrs then some (index.get k a) else none

/-- Embedding of `compute_diff` (server.py lines 112-157): replay the
retained updates newer than `since`, then materialize the accumulator
against the current index. -/
def compute_diff (updates : List (Int × UpdateRec)) (index : Index)
    (since : Int) : DiffResult :=
  let A := diffAccum updates since
  { added := A.added.image index.get
    removed := A.removed.image course_from_index_key
    modified := A.modDom.image
      (fun k => materializeModified index k (A.modAttrs k)) }

/-- The chained history of Update Records produced by successive refreshes:
one `compute_update` per consecutive pair of indexes. -/
def chainUpdates : Index → List Index → List UpdateRec
  | _, [] => []
  | prev, I :: rest => compute_update prev I :: chainUpdates I rest

/-- The last index of a chain (the current index after the refreshes). -/
def lastIdx : Index → List Index → Index
  | I, [] => I
  | _, I :: rest => lastIdx I rest

/-- Replay invariant: the relation maintained between the accumulator of
the `compute_diff` fold and the endpoints of the chained snapshot history
it replays.  `I0` is the index current at the queried baseline, `L` the
indexes of the subsequent refreshes, `In` the last of them, `A` the
accumulator after folding the chained Update Records. -/
def ChainInv (I0 In : Index) (L : List Index) (A : DiffAcc) : Prop :=
  A.added = In.dom \ I0.dom ∧
  A.removed = I0.dom \ In.dom ∧
  (∀ k ∈ A.modDom, k ∈ In.dom) ∧
  (∀ k a, a ∈ courseAttrsFinset → k ∈ I0.dom → k ∈ In.dom →
    I0.get k a ≠ In.get k a → k ∈ A.modDom ∧ a ∈ A.modAttrs k) ∧
  (∀ k, A.modAttrs k ⊆ courseAttrsFinset) ∧
  (∀ k, k ∈ I0.dom → k ∈ In.dom → (∃ J ∈ L, k ∉ J.dom) →
    k ∈ A.modDom ∧ A.modAttrs k = courseAttrsFinset)

/-! ## The versioned store (`course_data`) -/

/-- The store state, mirroring the dict `course_data` (server.py lines
31-40).  `malformed` is an `Option` because `INITIAL_COURSE_DATA` has no
`"malformed"` key at all; it only appears after the first refresh. -/
structure CourseData where
  current : Option (List Course)
  index : Option Index
  initial_timestamp : Option Int
  updates : List (Int × UpdateRec)
  timestamp : Option Int
  malformed : Option (List Value)

/-- `INITIAL_COURSE_DATA` (server.py lines 31-37). -/
def INITIAL_COURSE_DATA : CourseData :=
  { current := none, index := none, initial_timestamp := none,
    updates := [], timestamp := none, malformed := none }

/-- `MAX_UPDATES_SAVED` (server.py line 159). -/
def MAX_UPDATES_SAVED : Nat := 100

/-- Embedding of `update_course_data` (server.py lines 161-176): when a
prior index exists, append `(timestamp, compute_update last new)` to the
history and truncate it to the most recent `MAX_UPDATES_SAVED` entries;
otherwise record `initial_timestamp`.  Either way replace the current
snapshot, index, timestamp and malformed list. -/
def update_course_data (cd : CourseData) (timestamp : Int)
    (courses : List Course) (index : Index) (malformed : List Value) :
    CourseData :=
  match cd.index with
  | some last_index =>
    let updates := cd.updates ++ [(timestamp, compute_update last_index index)]
    let updates :=
      if updates.length > MAX_UPDATES_SAVED then
        updates.drop (updates.length - MAX_UPDATES_SAVED)
      else updates
    { current := some courses, index := some index,
      initial_timestamp := cd.initial_timestamp, updates := updates,
      timestamp := some timestamp, malformed := some malformed }
  | none =>
    { current := some courses, index := some index,
      initial_timestamp := some timestamp, updates := cd.updates,
      timestamp := some timestamp, malformed := some malformed }

/-- The arguments of one successful refresh as fed into
`update_course_data` by `fetch_and_update_course_data`. -/
structure Refresh where
  t : Int
  courses : List Course
  index : Index
  malformed : List Value

/-- Apply a sequence of successful refreshes, in order, to the pristine
store. -/
def applyRefreshes (rs : List Refresh) : CourseData :=
  rs.foldl
    (fun cd r => update_course_data cd r.t r.courses r.index r.malformed)
    INITIAL_COURSE_DATA

/-- The unbounded history that a sequence of refreshes generates from a
given prior index: one `(timestamp, update)` pair per refresh. -/
def fullUpdatesFrom : Index → List Refresh → List (Int × UpdateRec)
  | _, [] => []
  | prev, r :: rest =>
    (r.t, compute_update prev r.index) :: fullUpdatesFrom r.index rest

/-- The unbounded history generated by a refresh sequence from the pristine
store: the first refresh produces no history entry. -/
def fullUpdates : List Refresh → List (Int × UpdateRec)
  | [] => []
  | r :: rest => fullUpdatesFrom r.index rest

/-- The most recent `n` entries of a list, in order. -/
def takeLast (n : Nat) (l : List α) : List α := l.drop (l.length - n)

/-- The index installed after applying the given refreshes to a store
whose index was `I`. -/
def lastRefIdx : Index → List Refresh → Index
  | I, [] => I
  | _, r :: rest => lastRefIdx r.index rest

/-! ## Process-level state and the debug reset aliasing

At module load the server sets `course_data = copy.deepcopy
(INITIAL_COURSE_DATA)` (line 40), but the reset handler (line 408) assigns
`course_data = INITIAL_COURSE_DATA` without a copy, after which the two
names alias the same mutable dict and every refresh mutates
`INITIAL_COURSE_DATA` itself.  The embedding tracks both dicts plus
whether they are aliased. -/

/-- The two module-level dicts and whether `course_data` currently *is*
the `INITIAL_COURSE_DATA` object. -/
structure ServerState where
  data : CourseData
  template : CourseData
  aliased : Bool

/-- Module load (server.py line 40): `course_data` starts as a deep copy of
the template, so they are equal but not aliased. -/
def serverInit : ServerState :=
  { data := INITIAL_COURSE_DATA, template := INITIAL_COURSE_DATA,
    aliased := false }

/-- The `/debug/reset` handler (server.py lines 406-413): rebinds
`course_data` to the `INITIAL_COURSE_DATA` object itself, without copying. -/
def serverReset (s : ServerState) : ServerState :=
  { data := s.template, template := s.template, aliased := true }

/-- A successful refresh at process level: `update_course_data` mutates the
`course_data` dict in place, so when the names are aliased the template is
mutated too. -/
def serverRefresh (s : ServerState) (r : Refresh) : ServerState :=
  let d := update_course_data s.data r.t r.courses r.index r.malformed
  { data := d, template := if s.aliased then d else s.template,
    aliased := s.aliased }

/-! ## The GET query surface -/

/-- The possible responses of `HTTPHandler.do_GET` (server.py lines
278-375).  `internalError` stands for an uncaught Python exception
(`KeyError` or `TypeError`) escaping the handler; `unavailable` is the 503
sent when the course data is falsy; `badRequest` the 400 for a malformed
timestamp; `notFound` the 404 fallthrough. -/
inductive GetResp where
  | indexHtml
  | allCourses (courses : List Course) (timestamp : Option Int)
      (malformedCount : Nat)
  | sinceIncremental (diff : DiffResult) (timestamp : Option Int)
      (malformedCount : Nat)
  | sinceFull (courses : List Course) (timestamp : Option Int)
      (malformedCount : Nat)
  | malformedCourses (malformed : List Value)
  | experimentalDump
  | unavailable
  | badRequest
  | notFound
  | internalError
  deriving DecidableEq

/-- Boolean test that a char belongs to the regex class `[-0-9]`. -/
def isTsChar (c : Char) : Bool := c = '-' || ('0' ≤ c && c ≤ '9')

/-- Boolean prefix test on char lists (`re.match` anchors the pattern at
the start of the path and all route patterns are literal prefixes with an
optional trailing slash). -/
def lstartsWith : List Char → List Char → Bool
  | _, [] => true
  | [], _ :: _ => false
  | c :: cs, p :: ps => c = p && lstartsWith cs ps

/-- Literal part of the pattern `/api/v2/all-courses/?`. -/
def allCoursesPat : List Char := "/api/v2/all-courses".toList

/-- Literal part of the pattern `/api/v2/courses-since/([-0-9]+)/?`. -/
def sincePat : List Char := "/api/v2/courses-since/".toList

/-- Literal part of the pattern `/api/v2/malformed-courses/?`. -/
def malformedPat : List Char := "/api/v2/malformed-courses".toList

/-- Literal part of the pattern `/experimental/course-data/?`. -/
def experimentalPat : List Char := "/experimental/course-data".toList

/-- Parse a digit string to a number, or fail if any char is not a digit
or the string is empty. -/
def digitsToNat (l : List Char) : Option Nat :=
  if l ≠ [] ∧ l.all Char.isDigit then
    some (l.foldl (fun acc c => 10 * acc + (c.toNat - '0'.toNat)) 0)
  else none

/-- Python `int()` restricted to strings over the alphabet `[-0-9]` (the
only strings the courses-since route can capture): an optional single
leading minus followed by at least one digit. -/
def pyInt : List Char → Option Int
  | '-' :: rest => (digitsToNat rest).map (fun n => -(n : Int))
  | s => (digitsToNat s).map (fun n => (n : Int))

/-- Match of the courses-since route (server.py line 309): the literal
route followed by a nonempty greedy run of `[-0-9]` chars; the captured
group, or `none` when the pattern does not match. -/
def routeCoursesSince (path : List Char) : Option (List Char) :=
  if lstartsWith path sincePat then
    let run := (path.drop sincePat.length).takeWhile isTsChar
    if run = [] then none else some run
  else none

/-- Python truthiness of `course_data["current"]` (the guard used by every
read route): true exactly when the current course list is present and
nonempty. -/
def currentTruthy (cd : CourseData) : Bool :=
  match cd.current with
  | some (_ :: _) => true
  | _ => false

/-- The all-courses read (server.py lines 287-308): 503 when `current` is
falsy (absent *or empty*), else the full catalog.  A missing `malformed`
key would raise `KeyError`. -/
def allCoursesResponse (cd : CourseData) : GetResp :=
  match cd.current, cd.malformed with
  | some (c :: cs), some m => .allCourses (c :: cs) cd.timestamp m.length
  | some (_ :: _), none => .internalError
  | _, _ => .unavailable

/-- The courses-since read after a successfully parsed timestamp
(server.py lines 320-348).  Comparing against an unset
`initial_timestamp`, or materializing with an unset index or malformed
list, would raise in Python (`internalError`). -/
def coursesSinceResponse (cd : CourseData) (since : Int) : GetResp :=
  match cd.current with
  | some (c :: cs) =>
    match cd.initial_timestamp with
    | none => .internalError
    | some it =>
      if since ≥ it then
        match cd.index, cd.malformed with
        | some idx, some m =>
          .sinceIncremental (compute_diff cd.updates idx since)
            cd.timestamp m.length
        | _, _ => .internalError
      else
        match cd.malformed with
        | some m => .sinceFull (c :: cs) cd.timestamp m.length
        | none => .internalError
  | _ => .unavailable

/-- The malformed-courses read (server.py lines 350-364). -/
def malformedResponse (cd : CourseData) : GetResp :=
  match cd.current, cd.malformed with
  | some (_ :: _), some m => .malformedCourses m
  | some (_ :: _), none => .internalError
  | _, _ => .unavailable

/-- Embedding of `HTTPHandler.do_GET` (server.py lines 278-375): the routes
are tried in source order; a path matching no route is a 404.  The handler
performs no store mutation on any GET route, so it is a pure function of
the store state. -/
def do_GET (cd : CourseData) (path : List Char) : GetResp :=
  if path = "/".toList then .indexHtml
  else if lstartsWith path allCoursesPat then allCoursesResponse cd
  else
    match routeCoursesSince path with
    | some run =>
      match pyInt run with
      | none => .badRequest
      | some since => coursesSinceResponse cd since
    | none =>
      if lstartsWith path malformedPat then malformedResponse cd
      else if lstartsWith path experimentalPat then .experimentalDump
      else .notFound

/-! ## Deduplicator and indexer -/

/-- The error raised by the deduplicator and the indexer (`ScrapeError` in
the source).  The embedding carries the offending course instead of the
formatted message string. -/
inductive ScrapeError where
  | duplicateWithSuffix (c : Course)
  | duplicateCourse (c : Course)
  deriving DecidableEq

/-- The 26 suffix letters `string.ascii_uppercase`, as 1-char strings. -/
def asciiUppercase : List String :=
  ["A","B","C","D","E","F","G","H","I","J","K","L","M",
   "N","O","P","Q","R","S","T","U","V","W","X","Y","Z"]

/-- Assign a suffix letter to a course (`course["courseCodeSuffix"] =
letter`). -/
def setSuffix (c : Course) (letter : String) : Course :=
  Function.update c .courseCodeSuffix (.s letter)

/-- The distinct identity keys of a batch in first-occurrence order (the
iteration order of the `defaultdict` built on server.py lines 68-70). -/
def keysInOrder (courses : List Course) : List Key :=
  courses.foldl
    (fun acc c =>
      if course_to_index_key c ∈ acc then acc
      else acc ++ [course_to_index_key c])
    []

/-- The positions in the original batch whose course has identity key `k`
(the members of one `defaultdict` bucket; Python keeps references to the
course objects, which the embedding renders as positions in the list). -/
def groupPositions (courses : List Course) (k : Key) : List Nat :=
  (List.range courses.length).filter
    (fun i => course_to_index_key (courses.getD i default) = k)

/-- The groups of the batch, in first-occurrence order of their keys. -/
def dedupGroups (courses : List Course) : List (Key × List Nat) :=
  (keysInOrder courses).map (fun k => (k, groupPositions courses k))

/-- Assign the letters A, B, C, ... to the group members in input order
(server.py lines 78-79); `zip` silently stops after 26 letters. -/
def assignLetters (cur : List Course) (ps : List Nat) : List Course :=
  (ps.zip asciiUppercase).foldl
    (fun l pr => l.set pr.1 (setSuffix (l.getD pr.1 default) pr.2))
    cur

/-- The group loop of `deduplicate_course_keys` (server.py lines 71-79):
process each group in order; a group of size over one either aborts (first
member with a truthy suffix) or gets letters assigned.  The pair returned
is the batch state at exit together with the error, if any: an abort still
leaves the mutations of the previously processed groups in place. -/
def dedupGo : List Course → List (Key × List Nat) → List Course × Option ScrapeError
  | cur, [] => (cur, none)
  | cur, (_, ps) :: rest =>
    if ps.length > 1 then
      match (ps.map (fun p => cur.getD p default)).find?
          (fun c => Value.truthy (c Attr.courseCodeSuffix)) with
      | some c => (cur, some (.duplicateWithSuffix c))
      | none => dedupGo (assignLetters cur ps) rest
    else dedupGo cur rest

/-- Embedding of `deduplicate_course_keys` (server.py lines 55-79). -/
def deduplicate_course_keys (courses : List Course) :
    List Course × Option ScrapeError :=
  dedupGo courses (dedupGroups courses)

/-- The index-building loop of `index_courses` (server.py lines 83-89):
insert each course under its key, failing on a key already present. -/
def indexGo : Index → List Course → Except ScrapeError Index
  | idx, [] => .ok idx
  | idx, c :: rest =>
    let k := course_to_index_key c
    if k ∈ idx.dom then .error (.duplicateCourse c)
    else indexGo ⟨insert k idx.dom, Function.update idx.get k c⟩ rest

/-- Embedding of `index_courses` (server.py lines 81-90): deduplicate,
propagating a deduplication failure, then build the index. -/
def index_courses (courses : List Course) : Except ScrapeError Index :=
  match deduplicate_course_keys courses with
  | (_, some e) => .error e
  | (courses2, none) => indexGo emptyIndex courses2

/-! ## Concrete instances used by counterexamples and witnesses -/

/-- A concrete course record. -/
def cIntro : Course := fun a =>
  match a with
  | .department => .s "CS"
  | .courseNumber => .n 101
  | .courseCodeSuffix => .s ""
  | .school => .s "HM"
  | .sectionNum => .n 1
  | .title => .s "Intro"
  | .faculty => .s "Smith"

/-- The same record with a different title (a tracked, non-identity
attribute). -/
def cIntro2 : Course := Function.update cIntro .title (.s "Intro 2")

/-- A second record with the same identity key as `cIntro` but another
title. -/
def cIntroDup : Course := Function.update cIntro .title (.s "Other")

/-- A record in another department carrying a pre-existing suffix. -/
def cPsycZ : Course := fun a =>
  match a with
  | .department => .s "PSYC"
  | .courseNumber => .n 131
  | .courseCodeSuffix => .s "Z"
  | .school => .s "JT"
  | .sectionNum => .n 1
  | .title => .s "Psych"
  | .faculty => .s "Jones"

/-- A duplicate of `cPsycZ` (same identity key, other title). -/
def cPsycZ2 : Course := Function.update cPsycZ .title (.s "Psych B")

/-- The identity key shared by `cIntro`, `cIntro2` and `cIntroDup`. -/
def k0 : Key := course_to_index_key cIntro

/-- A one-record index holding `cIntro`. -/
def idxA : Index := ⟨{k0}, fun _ => cIntro⟩

/-- A one-record index holding `cIntro2` under the same key. -/
def idxB : Index := ⟨{k0}, fun _ => cIntro2⟩

/-! ## Helper lemmas about chained histories -/

theorem chainUpdates_append (I0 J : Index) (L : List Index) :
    chainUpdates I0 (L ++ [J])
      = chainUpdates I0 L ++ [compute_update (lastIdx I0 L) J] := by
  induction L generalizing I0 with
  | nil => rfl
  | cons I rest ih => simp [chainUpdates, lastIdx, ih]

theorem lastIdx_append (I0 J : Index) (L : List Index) :
    lastIdx I0 (L ++ [J]) = J := by
  induction L generalizing I0 with
  | nil => rfl
  | cons I rest ih => simpa [lastIdx] using ih I

theorem chainUpdates_length (I0 : Index) (L : List Index) :
    (chainUpdates I0 L).length = L.length := by
  induction L generalizing I0 with
  | nil => rfl
  | cons I rest ih => simp [chainUpdates, ih]

theorem chainInv_step (I0 Iprev J : Index) (L : List Index) (A : DiffAcc)
    (h : ChainInv I0 Iprev L A) :
    ChainInv I0 J (L ++ [J]) (applyUpdate A (compute_update Iprev J)) := by
  obtain ⟨h1, h2, h3, h4, h5, h6⟩ := h
  refine ⟨?_, ?_, ?_, ?_, ?_, ?_⟩
  · ext k
    simp only [applyUpdate, compute_update, h1, h2, Finset.mem_sdiff,
      Finset.mem_union, Finset.mem_inter]
    tauto
  · ext k
    simp only [applyUpdate, compute_update, h1, h2, Finset.mem_sdiff,
      Finset.mem_union, Finset.mem_inter]
    tauto
  · intro k hk
    have hk' : (k ∈ A.modDom ∨ k ∈ (compute_update Iprev J).modDom ∨
        k ∈ (compute_update Iprev J).added ∩ A.removed) ∧
        k ∉ (compute_update Iprev J).removed := by
      simpa only [applyUpdate, Finset.mem_sdiff, Finset.mem_union,
        or_assoc] using hk
    obtain ⟨hin, hout⟩ := hk'
    have hnotrem : ¬(k ∈ Iprev.dom ∧ k ∉ J.dom) := by
      simpa [compute_update] using hout
    rcases hin with hA | hmod | hre
    · by_cases hj : k ∈ J.dom
      · exact hj
      · exact absurd ⟨h3 k hA, hj⟩ hnotrem
    · exact (Finset.mem_inter.mp (Finset.mem_of_mem_filter k hmod)).1
    · exact (Finset.mem_sdiff.mp (Finset.mem_inter.mp hre).1).1
  · intro k a ha hk0 hkJ hne
    by_cases hp : k ∈ Iprev.dom
    · have hc1 : ¬(k ∈ (compute_update Iprev J).added ∩ A.removed) := by
        simp [compute_update, hp]
      have hnr : k ∉ (compute_update Iprev J).removed := by
        simp [compute_update, hkJ]
      by_cases heq : Iprev.get k a = J.get k a
      · have hne0 : I0.get k a ≠ Iprev.get k a := fun hh => hne (hh.trans heq)
        obtain ⟨hd, hattr⟩ := h4 k a ha hk0 hp hne0
        constructor
        · simp only [applyUpdate, Finset.mem_sdiff, Finset.mem_union]
          exact ⟨Or.inl (Or.inl hd), hnr⟩
        · simp only [applyUpdate]
          rw [if_neg hc1]
          by_cases hm : k ∈ (compute_update Iprev J).modDom
          · rw [if_pos hm, if_pos hd]
            exact Finset.mem_union.mpr (Or.inl hattr)
          · rw [if_neg hm]
            exact hattr
      · have hchanged : a ∈ changedAttrs Iprev J k :=
          Finset.mem_filter.mpr ⟨ha, heq⟩
        have hmod : k ∈ (compute_update Iprev J).modDom :=
          Finset.mem_filter.mpr ⟨Finset.mem_inter.mpr ⟨hkJ, hp⟩,
            Finset.ne_empty_of_mem hchanged⟩
        constructor
        · simp only [applyUpdate, Finset.mem_sdiff, Finset.mem_union]
          exact ⟨Or.inl (Or.inr hmod), hnr⟩
        · simp only [applyUpdate]
          rw [if_neg hc1, if_pos hmod]
          exact Finset.mem_union.mpr (Or.inr hchanged)
    · have hadd : k ∈ (compute_update Iprev J).added := by
        simp [compute_update, hkJ, hp]
      have hrem : k ∈ A.removed := by
        rw [h2]; exact Finset.mem_sdiff.mpr ⟨hk0, hp⟩
      have hnr : k ∉ (compute_update Iprev J).removed := by
        simp [compute_update, hp]
      constructor
      · simp only [applyUpdate, Finset.mem_sdiff, Finset.mem_union]
        exact ⟨Or.inr (Finset.mem_inter.mpr ⟨hadd, hrem⟩), hnr⟩
      · simp only [applyUpdate]
        rw [if_pos (Finset.mem_inter.mpr ⟨hadd, hrem⟩)]
        exact ha
  · intro k
    have hsub : (compute_update Iprev J).modAttrs k ⊆ courseAttrsFinset :=
      Finset.filter_subset _ _
    simp only [applyUpdate]
    split_ifs with hc1 hm hd
    · exact Finset.Subset.refl _
    · exact Finset.union_subset (h5 k) hsub
    · exact Finset.union_subset (Finset.empty_subset _) hsub
    · exact h5 k
  · intro k hk0 hkJ hex
    obtain ⟨J', hJ'mem, hJ'abs⟩ := hex
    rcases List.mem_append.mp hJ'mem with hJ'L | hJ'single
    swap
    · rw [List.mem_singleton.mp hJ'single] at hJ'abs
      exact absurd hkJ hJ'abs
    by_cases hp : k ∈ Iprev.dom
    · obtain ⟨hd, hfull⟩ := h6 k hk0 hp ⟨J', hJ'L, hJ'abs⟩
      have hc1 : ¬(k ∈ (compute_update Iprev J).added ∩ A.removed) := by
        simp [compute_update, hp]
      have hnr : k ∉ (compute_update Iprev J).removed := by
        simp [compute_update, hkJ]
      have hsub : (compute_update Iprev J).modAttrs k ⊆ courseAttrsFinset :=
        Finset.filter_subset _ _
      constructor
      · simp only [applyUpdate, Finset.mem_sdiff, Finset.mem_union]
        exact ⟨Or.inl (Or.inl hd), hnr⟩
      · simp only [applyUpdate]
        rw [if_neg hc1]
        by_cases hm : k ∈ (compute_update Iprev J).modDom
        · rw [if_pos hm, if_pos hd, hfull]
          exact Finset.union_eq_left.mpr hsub
        · rw [if_neg hm]
          exact hfull
    · have hadd : k ∈ (compute_update Iprev J).added := by
        simp [compute_update, hkJ, hp]
      have hrem : k ∈ A.removed := by
        rw [h2]; exact Finset.mem_sdiff.mpr ⟨hk0, hp⟩
      have hnr : k ∉ (compute_update Iprev J).removed := by
        simp [compute_update, hp]
      constructor
      · simp only [applyUpdate, Finset.mem_sdiff, Finset.mem_union]
        exact ⟨Or.inr (Finset.mem_inter.mpr ⟨hadd, hrem⟩), hnr⟩
      · simp only [applyUpdate]
        rw [if_pos (Finset.mem_inter.mpr ⟨hadd, hrem⟩)]

theorem chainInv_holds (I0 : Index) (L : List Index) :
    ChainInv I0 (lastIdx I0 L) L
      ((chainUpdates I0 L).foldl applyUpdate emptyAcc) := by
  induction L using List.reverseRecOn with
  | nil =>
    refine ⟨by simp [chainUpdates, lastIdx, emptyAcc], ?_, ?_, ?_, ?_, ?_⟩
    · simp [chainUpdates, lastIdx, emptyAcc]
    · simp [chainUpdates, emptyAcc]
    · intro k a _ _ _ hne
      exact absurd rfl hne
    · intro k
      simp [chainUpdates, emptyAcc]
    · intro k _ _ hex
      simp at hex
  | append_singleton L J ih =>
    rw [chainUpdates_append, List.foldl_append, lastIdx_append]
    exact chainInv_step I0 (lastIdx I0 L) J L _ ih

theorem diffAccum_chain (H0 : List (Int × UpdateRec)) (ts : List Int)
    (I0 : Index) (L : List Index) (since : Int)
    (hH0 : ∀ p ∈ H0, p.1 ≤ since) (hts : ∀ t ∈ ts, since < t)
    (hlen : ts.length = L.length) :
    diffAccum (H0 ++ ts.zip (chainUpdates I0 L)) since
      = (chainUpdates I0 L).foldl applyUpdate emptyAcc := by
  unfold diffAccum
  rw [List.filter_append]
  have e1 : H0.filter (fun p => decide (since < p.1)) = [] :=
    List.filter_eq_nil_iff.mpr (fun p hp => by simpa using hH0 p hp)
  have e2 : (ts.zip (chainUpdates I0 L)).filter
      (fun p => decide (since < p.1)) = ts.zip (chainUpdates I0 L) := by
    refine List.filter_eq_self.mpr (fun p hp => ?_)
    have h1 : p.1 ∈ ts := (List.of_mem_zip (by simpa using hp)).1
    simpa using hts _ h1
  rw [e1, e2, List.nil_append,
    List.map_snd_zip ts (chainUpdates I0 L)
      (by rw [chainUpdates_length, hlen])]

/-- C1, counterexample: for the retained chained history that changes a
tracked attribute of a record away and back (snapshots `idxA`, `idxB`,
`idxA` at timestamps 1 and 2, queried with `since = 0`), the replayed
accumulator reports the key as modified while the direct `compute_update`
between the snapshot at `since` and the current snapshot reports no
modified key at all — so `diffSince` does not describe the same
modified-keys set as the direct diff. -/
theorem claim_C1_counterexample :
    (diffAccum [(1, compute_update idxA idxB),
        (2, compute_update idxB idxA)] 0).modDom
      ≠ (compute_update idxA idxA).modDom := by decide

/-- C1, amended: over a retained chained history (entries at or before
`since` arbitrary, entries after `since` the chained Update Records of the
snapshots `I0, L...`), the replayed accumulator has exactly the added and
removed key sets of the direct `compute_update` between the snapshot at
`since` and the current snapshot, and its modified entries form a sound
over-approximation: every directly-modified key is reported with at least
its directly-changed attributes. -/
theorem claim_C1_amended (H0 : List (Int × UpdateRec)) (ts : List Int)
    (I0 : Index) (L : List Index) (since : Int)
    (hH0 : ∀ p ∈ H0, p.1 ≤ since) (hts : ∀ t ∈ ts, since < t)
    (hlen : ts.length = L.length) :
    (diffAccum (H0 ++ ts.zip (chainUpdates I0 L)) since).added
        = (compute_update I0 (lastIdx I0 L)).added ∧
    (diffAccum (H0 ++ ts.zip (chainUpdates I0 L)) since).removed
        = (compute_update I0 (lastIdx I0 L)).removed ∧
    ∀ k ∈ (compute_update I0 (lastIdx I0 L)).modDom,
      k ∈ (diffAccum (H0 ++ ts.zip (chainUpdates I0 L)) since).modDom ∧
      (compute_update I0 (lastIdx I0 L)).modAttrs k
        ⊆ (diffAccum (H0 ++ ts.zip (chainUpdates I0 L)) since).modAttrs k := by
  rw [diffAccum_chain H0 ts I0 L since hH0 hts hlen]
  obtain ⟨h1, h2, _, h4, _, _⟩ := chainInv_holds I0 L
  refine ⟨by rw [h1]; rfl, by rw [h2]; rfl, ?_⟩
  intro k hk
  simp only [compute_update] at hk
  obtain ⟨hmem, hne⟩ := Finset.mem_filter.mp hk
  obtain ⟨hkIn, hkI0⟩ := Finset.mem_inter.mp hmem
  obtain ⟨a, ha⟩ := Finset.nonempty_iff_ne_empty.mpr hne
  obtain ⟨haattr, hadiff⟩ := Finset.mem_filter.mp ha
  refine ⟨(h4 k a haattr hkI0 hkIn hadiff).1, ?_⟩
  intro b hb
  obtain ⟨hbattr, hbdiff⟩ := Finset.mem_filter.mp hb
  exact (h4 k b hbattr hkI0 hkIn hbdiff).2

/-- C1, witness for the amended theorem: a concrete history (one stale
entry at timestamp 0 and the chained snapshots `idxA → idxB → idxA` at
timestamps 1 and 2, queried with `since = 0`) satisfying all hypotheses. -/
theorem claim_C1_witness :
    ((∀ p ∈ ([(0, compute_update idxA idxB)] : List (Int × UpdateRec)),
        p.1 ≤ 0) ∧
     (∀ t ∈ ([1, 2] : List Int), (0:Int) < t) ∧
     ([1, 2] : List Int).length = ([idxB, idxA] : List Index).length) ∧
    ((diffAccum ([(0, compute_update idxA idxB)] ++
        ([1, 2] : List Int).zip (chainUpdates idxA [idxB, idxA])) 0).added
        = (compute_update idxA (lastIdx idxA [idxB, idxA])).added ∧
     (diffAccum ([(0, compute_update idxA idxB)] ++
        ([1, 2] : List Int).zip (chainUpdates idxA [idxB, idxA])) 0).removed
        = (compute_update idxA (lastIdx idxA [idxB, idxA])).removed ∧
     ∀ k ∈ (compute_update idxA (lastIdx idxA [idxB, idxA])).modDom,
       k ∈ (diffAccum ([(0, compute_update idxA idxB)] ++
         ([1, 2] : List Int).zip (chainUpdates idxA [idxB, idxA])) 0).modDom ∧
       (compute_update idxA (lastIdx idxA [idxB, idxA])).modAttrs k
         ⊆ (diffAccum ([(0, compute_update idxA idxB)] ++
           ([1, 2] : List Int).zip (chainUpdates idxA [idxB, idxA])) 0).modAttrs k) :=
  ⟨⟨by decide, by decide, by decide⟩,
   claim_C1_amended _ _ _ _ _ (by decide) (by decide) (by decide)⟩

/-- C2, counterexample: the key `k0` is removed by the retained refresh at
timestamp 2 and added again by the retained refresh at timestamp 3, both
after `since = 0` (chained snapshots `∅ → {k0} → ∅ → {k0}`), yet the
replayed diff reports it in `added` and not in `modified` — the claim's
conclusion fails because the key was absent at `since`. -/
theorem claim_C2_counterexample :
    k0 ∈ (diffAccum [(1, compute_update emptyIndex idxA),
        (2, compute_update idxA emptyIndex),
        (3, compute_update emptyIndex idxA)] 0).added ∧
    (diffAccum [(1, compute_update emptyIndex idxA),
        (2, compute_update idxA emptyIndex),
        (3, compute_update emptyIndex idxA)] 0).modDom = ∅ := by decide

/-- C2, amended: if the key is present in the snapshot current at `since`
and in the current snapshot, and is absent from some intermediate retained
snapshot (equivalently: removed by one retained refresh after `since` and
added again by a later one), then the replayed diff reports it in
`modified` with the full tracked-attribute set and in neither `added` nor
`removed`. -/
theorem claim_C2_amended (H0 : List (Int × UpdateRec)) (ts : List Int)
    (I0 : Index) (L : List Index) (since : Int) (k : Key)
    (hH0 : ∀ p ∈ H0, p.1 ≤ since) (hts : ∀ t ∈ ts, since < t)
    (hlen : ts.length = L.length)
    (hk0 : k ∈ I0.dom) (hkn : k ∈ (lastIdx I0 L).dom)
    (habs : ∃ J ∈ L, k ∉ J.dom) :
    k ∈ (diffAccum (H0 ++ ts.zip (chainUpdates I0 L)) since).modDom ∧
    (diffAccum (H0 ++ ts.zip (chainUpdates I0 L)) since).modAttrs k
      = courseAttrsFinset ∧
    k ∉ (diffAccum (H0 ++ ts.zip (chainUpdates I0 L)) since).added ∧
    k ∉ (diffAccum (H0 ++ ts.zip (chainUpdates I0 L)) since).removed := by
  rw [diffAccum_chain H0 ts I0 L since hH0 hts hlen]
  obtain ⟨h1, h2, _, _, _, h6⟩ := chainInv_holds I0 L
  obtain ⟨hd, hfull⟩ := h6 k hk0 hkn habs
  refine ⟨hd, hfull, ?_, ?_⟩
  · rw [h1]
    simp [hk0]
  · rw [h2]
    simp [hkn]

/-- C2, witness for the amended theorem: the record of `idxA` is removed
at timestamp 1 and re-added at timestamp 2 (chained snapshots
`idxA → ∅ → idxA`), queried with `since = 0`. -/
theorem claim_C2_witness :
    ((∀ p ∈ ([] : List (Int × UpdateRec)), p.1 ≤ (0:Int)) ∧
     (∀ t ∈ ([1, 2] : List Int), (0:Int) < t) ∧
     ([1, 2] : List Int).length = ([emptyIndex, idxA] : List Index).length ∧
     k0 ∈ idxA.dom ∧ k0 ∈ (lastIdx idxA [emptyIndex, idxA]).dom ∧
     (∃ J ∈ ([emptyIndex, idxA] : List Index), k0 ∉ J.dom)) ∧
    (k0 ∈ (diffAccum ([] ++ ([1, 2] : List Int).zip
        (chainUpdates idxA [emptyIndex, idxA])) 0).modDom ∧
     (diffAccum ([] ++ ([1, 2] : List Int).zip
        (chainUpdates idxA [emptyIndex, idxA])) 0).modAttrs k0
        = courseAttrsFinset ∧
     k0 ∉ (diffAccum ([] ++ ([1, 2] : List Int).zip
        (chainUpdates idxA [emptyIndex, idxA])) 0).added ∧
     k0 ∉ (diffAccum ([] ++ ([1, 2] : List Int).zip
        (chainUpdates idxA [emptyIndex, idxA])) 0).removed) :=
  ⟨⟨by decide, by decide, by decide, by decide, by decide, by decide⟩,
   claim_C2_amended _ _ _ _ _ _ (by decide) (by decide) (by decide)
     (by decide) (by decide) (by decide)⟩

/-- C3, counterexample: for the chained history `∅ → {k0} → {k0 modified}`
(timestamps 1 and 2, `since = 0`) the key `k0` appears in both the `added`
set and the `modified` dict of the accumulated result — the replay loop
never checks its `added` accumulator when merging a step's modified
entries, so the final collections are not pairwise disjoint. -/
theorem claim_C3_counterexample :
    k0 ∈ (diffAccum [(1, compute_update emptyIndex idxA),
        (2, compute_update idxA idxB)] 0).added ∧
    k0 ∈ (diffAccum [(1, compute_update emptyIndex idxA),
        (2, compute_update idxA idxB)] 0).modDom := by decide

/-- C3, amended: every single Update Record produced by `compute_update`
has pairwise disjoint `added`, `removed` and `modified` collections, and in
the result accumulated by `diffSince` over a retained chained history the
`removed` set is disjoint from both `added` and `modified`; but `added`
and `modified` may overlap (see the counterexample). -/
theorem claim_C3_amended (oldI newI : Index) (H0 : List (Int × UpdateRec))
    (ts : List Int) (I0 : Index) (L : List Index) (since : Int)
    (hH0 : ∀ p ∈ H0, p.1 ≤ since) (hts : ∀ t ∈ ts, since < t)
    (hlen : ts.length = L.length) :
    ((compute_update oldI newI).added ∩ (compute_update oldI newI).removed
        = ∅ ∧
     (compute_update oldI newI).added ∩ (compute_update oldI newI).modDom
        = ∅ ∧
     (compute_update oldI newI).removed ∩ (compute_update oldI newI).modDom
        = ∅) ∧
    ((diffAccum (H0 ++ ts.zip (chainUpdates I0 L)) since).removed ∩
        (diffAccum (H0 ++ ts.zip (chainUpdates I0 L)) since).added = ∅ ∧
     (diffAccum (H0 ++ ts.zip (chainUpdates I0 L)) since).removed ∩
        (diffAccum (H0 ++ ts.zip (chainUpdates I0 L)) since).modDom = ∅) := by
  constructor
  · refine ⟨?_, ?_, ?_⟩
    · ext k
      simp only [compute_update, Finset.mem_inter, Finset.mem_sdiff,
        Finset.not_mem_empty, iff_false]
      tauto
    · ext k
      simp only [compute_update, Finset.mem_inter, Finset.mem_sdiff,
        Finset.mem_filter, Finset.not_mem_empty, iff_false]
      tauto
    · ext k
      simp only [compute_update, Finset.mem_inter, Finset.mem_sdiff,
        Finset.mem_filter, Finset.not_mem_empty, iff_false]
      tauto
  · rw [diffAccum_chain H0 ts I0 L since hH0 hts hlen]
    obtain ⟨h1, h2, h3, _, _, _⟩ := chainInv_holds I0 L
    constructor
    · rw [h1, h2]
      ext k
      simp only [Finset.mem_inter, Finset.mem_sdiff,
        Finset.not_mem_empty, iff_false]
      tauto
    · refine Finset.eq_empty_iff_forall_not_mem.mpr (fun k hk => ?_)
      obtain ⟨hkr, hkm⟩ := Finset.mem_inter.mp hk
      rw [h2] at hkr
      exact (Finset.mem_sdiff.mp hkr).2 (h3 k hkm)

/-- C3, witness for the amended theorem: the concrete chained history of
the C1 witness satisfies all hypotheses. -/
theorem claim_C3_witness :
    ((∀ p ∈ ([(0, compute_update idxA idxB)] : List (Int × UpdateRec)),
        p.1 ≤ 0) ∧
     (∀ t ∈ ([1, 2] : List Int), (0:Int) < t) ∧
     ([1, 2] : List Int).length = ([idxB, idxA] : List Index).length) ∧
    (((compute_update emptyIndex idxA).added ∩
        (compute_update emptyIndex idxA).removed = ∅ ∧
      (compute_update emptyIndex idxA).added ∩
        (compute_update emptyIndex idxA).modDom = ∅ ∧
      (compute_update emptyIndex idxA).removed ∩
        (compute_update emptyIndex idxA).modDom = ∅) ∧
     ((diffAccum ([(0, compute_update idxA idxB)] ++
         ([1, 2] : List Int).zip (chainUpdates idxA [idxB, idxA])) 0).removed ∩
        (diffAccum ([(0, compute_update idxA idxB)] ++
         ([1, 2] : List Int).zip (chainUpdates idxA [idxB, idxA])) 0).added
        = ∅ ∧
      (diffAccum ([(0, compute_update idxA idxB)] ++
         ([1, 2] : List Int).zip (chainUpdates idxA [idxB, idxA])) 0).removed ∩
        (diffAccum ([(0, compute_update idxA idxB)] ++
         ([1, 2] : List Int).zip (chainUpdates idxA [idxB, idxA])) 0).modDom
        = ∅)) :=
  ⟨⟨by decide, by decide, by decide⟩,
   claim_C3_amended emptyIndex idxA _ _ _ _ _ (by decide) (by decide)
     (by decide)⟩

/-- C10: when every retained history entry's timestamp is at most `since`
(in particular when a client polls with the store's latest refresh
timestamp), `compute_diff` returns a diff whose added, removed and
modified collections are all empty. -/
theorem claim_C10_stale_diff_empty (updates : List (Int × UpdateRec))
    (index : Index) (since : Int) (h : ∀ p ∈ updates, p.1 ≤ since) :
    compute_diff updates index since = ⟨∅, ∅, ∅⟩ := by
  have e : updates.filter (fun p => decide (since < p.1)) = [] :=
    List.filter_eq_nil_iff.mpr (fun p hp => by simpa using h p hp)
  simp [compute_diff, diffAccum, e, emptyAcc]

/-- C10, witness: a concrete one-entry history whose timestamp 1 is at
most the queried `since = 5`. -/
theorem claim_C10_witness :
    (∀ p ∈ ([(1, compute_update idxA idxB)] : List (Int × UpdateRec)),
        p.1 ≤ 5) ∧
    compute_diff [(1, compute_update idxA idxB)] idxA 5 = ⟨∅, ∅, ∅⟩ :=
  ⟨by decide, claim_C10_stale_diff_empty _ _ _ (by decide)⟩

/-! ## Helper lemmas for the bounded history -/

theorem takeLast_length_le (n : Nat) (l : List α) :
    (takeLast n l).length ≤ n := by
  simp only [takeLast, List.length_drop]
  omega

theorem takeLast_of_length_le {n : Nat} {l : List α} (h : l.length ≤ n) :
    takeLast n l = l := by
  simp [takeLast, Nat.sub_eq_zero_of_le h]

theorem takeLast_append_step (H : List α) (x : α) (W : Nat) (hW : 0 < W) :
    (if (takeLast W H ++ [x]).length > W then
      (takeLast W H ++ [x]).drop ((takeLast W H ++ [x]).length - W)
    else takeLast W H ++ [x]) = takeLast W (H ++ [x]) := by
  by_cases hlen : H.length < W
  · rw [takeLast_of_length_le (Nat.le_of_lt hlen)]
    rw [if_neg (by simp; omega)]
    rw [takeLast_of_length_le (by simp; omega)]
  · have hWle : W ≤ H.length := Nat.le_of_not_lt hlen
    have hlen1 : (takeLast W H).length = W := by
      simp only [takeLast, List.length_drop]
      omega
    rw [if_pos (by simp [hlen1])]
    have hd1 : (takeLast W H ++ [x]).length - W = 1 := by
      simp [hlen1]
    rw [hd1]
    unfold takeLast
    rw [List.drop_append_of_le_length (by simp only [List.length_drop]; omega),
      List.drop_append_of_le_length (by simp; omega),
      List.drop_drop]
    congr 2
    simp only [List.length_append, List.length_cons, List.length_nil]
    omega

theorem update_fold_spec (rs : List Refresh) (cd : CourseData) (I : Index)
    (H : List (Int × UpdateRec)) (hidx : cd.index = some I)
    (hupd : cd.updates = takeLast MAX_UPDATES_SAVED H) :
    (rs.foldl
      (fun cd r => update_course_data cd r.t r.courses r.index r.malformed)
      cd).updates
        = takeLast MAX_UPDATES_SAVED (H ++ fullUpdatesFrom I rs) ∧
    (rs.foldl
      (fun cd r => update_course_data cd r.t r.courses r.index r.malformed)
      cd).index = some (lastRefIdx I rs) := by
  induction rs generalizing cd I H with
  | nil =>
    simpa [fullUpdatesFrom, lastRefIdx, hidx] using hupd
  | cons r rest ih =>
    rw [List.foldl_cons]
    have hstep :
        update_course_data cd r.t r.courses r.index r.malformed
          = { current := some r.courses, index := some r.index,
              initial_timestamp := cd.initial_timestamp,
              updates :=
                if (cd.updates ++ [(r.t, compute_update I r.index)]).length
                    > MAX_UPDATES_SAVED then
                  (cd.updates ++ [(r.t, compute_update I r.index)]).drop
                    ((cd.updates ++
                      [(r.t, compute_update I r.index)]).length
                        - MAX_UPDATES_SAVED)
                else cd.updates ++ [(r.t, compute_update I r.index)],
              timestamp := some r.t, malformed := some r.malformed } := by
      rw [update_course_data, hidx]
    rw [hstep]
    have hupd' :
        (if (cd.updates ++ [(r.t, compute_update I r.index)]).length
            > MAX_UPDATES_SAVED then
          (cd.updates ++ [(r.t, compute_update I r.index)]).drop
            ((cd.updates ++ [(r.t, compute_update I r.index)]).length
              - MAX_UPDATES_SAVED)
        else cd.updates ++ [(r.t, compute_update I r.index)])
          = takeLast MAX_UPDATES_SAVED
              (H ++ [(r.t, compute_update I r.index)]) := by
      rw [hupd]
      exact takeLast_append_step H _ MAX_UPDATES_SAVED (by decide)
    have := ih
      { current := some r.courses, index := some r.index,
        initial_timestamp := cd.initial_timestamp,
        updates := takeLast MAX_UPDATES_SAVED
          (H ++ [(r.t, compute_update I r.index)]),
        timestamp := some r.t, malformed := some r.malformed }
      r.index (H ++ [(r.t, compute_update I r.index)]) rfl rfl
    rw [hupd']
    refine ⟨?_, ?_⟩
    · rw [this.1]
      congr 1
      simp [fullUpdatesFrom, List.append_assoc]
    · rw [this.2]
      rfl

/-- C5: for every sequence of successful refreshes applied in order from
the pristine store, the retained update history always holds at most
`MAX_UPDATES_SAVED = 100` entries, and it equals exactly the most recent
100 entries of the full chronological `(timestamp, update)` sequence the
refreshes generate (the first refresh produces no entry), in oldest-first
order with the oldest entries dropped. -/
theorem claim_C5_bounded_history (rs : List Refresh) :
    (applyRefreshes rs).updates
      = takeLast MAX_UPDATES_SAVED (fullUpdates rs) ∧
    (applyRefreshes rs).updates.length ≤ MAX_UPDATES_SAVED := by
  have hmain : (applyRefreshes rs).updates
      = takeLast MAX_UPDATES_SAVED (fullUpdates rs) := by
    match rs with
    | [] => rfl
    | r0 :: rest =>
      have h0 : update_course_data INITIAL_COURSE_DATA r0.t r0.courses
          r0.index r0.malformed
            = { current := some r0.courses, index := some r0.index,
                initial_timestamp := some r0.t, updates := [],
                timestamp := some r0.t, malformed := some r0.malformed } := by
        rw [update_course_data]
        rfl
      have := update_fold_spec rest
        { current := some r0.courses, index := some r0.index,
          initial_timestamp := some r0.t, updates := [],
          timestamp := some r0.t, malformed := some r0.malformed }
        r0.index [] rfl rfl
      unfold applyRefreshes
      rw [List.foldl_cons, h0, this.1]
      rfl
  exact ⟨hmain, by rw [hmain]; exact takeLast_length_le _ _⟩

/-! ## Helper lemmas for the query surface -/

theorem lstartsWith_nil (l : List Char) : lstartsWith l [] = true := by
  cases l <;> rfl

theorem lstartsWith_append (p s : List Char) :
    lstartsWith (p ++ s) p = true := by
  induction p with
  | nil => exact lstartsWith_nil s
  | cons c cs ih => simp [lstartsWith, ih]

theorem lstartsWith_append_of_le (p pre s : List Char)
    (h : p.length ≤ pre.length) :
    lstartsWith (pre ++ s) p = lstartsWith pre p := by
  induction p generalizing pre with
  | nil => rw [lstartsWith_nil, lstartsWith_nil]
  | cons c cs ih =>
    cases pre with
    | nil => simp at h
    | cons a as =>
      show (decide (a = c) && lstartsWith (as ++ s) cs)
        = (decide (a = c) && lstartsWith as cs)
      rw [ih as (by simpa using h)]

theorem do_GET_allCoursesRoute (cd : CourseData) :
    do_GET cd allCoursesPat = allCoursesResponse cd := by
  unfold do_GET
  rw [if_neg (by decide), if_pos (by decide)]

theorem do_GET_malformedRoute (cd : CourseData) :
    do_GET cd malformedPat = malformedResponse cd := by
  unfold do_GET
  rw [if_neg (by decide), if_neg (by decide)]
  have hnone : routeCoursesSince malformedPat = none := by decide
  rw [hnone, if_pos (by decide)]

theorem routeCoursesSince_of_run (s : List Char)
    (hchars : ∀ c ∈ s, isTsChar c = true) (hne : s ≠ []) :
    routeCoursesSince (sincePat ++ s) = some s := by
  unfold routeCoursesSince
  rw [if_pos (lstartsWith_append sincePat s)]
  have hdrop : (sincePat ++ s).drop sincePat.length = s :=
    List.drop_left sincePat s
  rw [hdrop, List.takeWhile_eq_self_iff.mpr hchars, if_neg hne]

theorem do_GET_sinceRoute (cd : CourseData) (s : List Char)
    (hchars : ∀ c ∈ s, isTsChar c = true) (hne : s ≠ []) :
    do_GET cd (sincePat ++ s)
      = match pyInt s with
        | none => GetResp.badRequest
        | some since => coursesSinceResponse cd since := by
  unfold do_GET
  have hroot : ¬(sincePat ++ s = "/".toList) := by
    intro h
    have hlen := congrArg List.length h
    rw [List.length_append] at hlen
    have h22 : sincePat.length = 22 := by decide
    have h1 : ("/".toList).length = 1 := by decide
    rw [h22, h1] at hlen
    omega
  have hall : lstartsWith (sincePat ++ s) allCoursesPat = false := by
    rw [lstartsWith_append_of_le allCoursesPat sincePat s (by decide)]
    decide
  rw [if_neg hroot, if_neg (by simp [hall]),
    routeCoursesSince_of_run s hchars hne]

/-- C4, counterexample: a successful refresh delivering an empty course
list initializes the store (`current` becomes `some []`, not `none`), yet
the all-courses read still reports unavailable, because the handler tests
Python truthiness of the list rather than whether a refresh has occurred —
so "unavailable exactly when uninitialized" fails. -/
theorem claim_C4_counterexample :
    (update_course_data INITIAL_COURSE_DATA 100 [] emptyIndex []).current
      = some [] ∧
    (update_course_data INITIAL_COURSE_DATA 100 [] emptyIndex []).current
      ≠ none ∧
    do_GET (update_course_data INITIAL_COURSE_DATA 100 [] emptyIndex [])
      allCoursesPat = GetResp.unavailable := by decide

/-- C4, amended: every read route reports unavailable exactly when the
current course list is falsy (absent or empty); and on a store whose
current list is nonempty (with the refresh-set fields present),
courses-since returns the incremental diff exactly when the requested
timestamp is at least `initial_timestamp`, and the full catalog marked
non-incremental otherwise. -/
theorem claim_C4_amended :
    (∀ cd : CourseData,
      (do_GET cd allCoursesPat = GetResp.unavailable ↔
        currentTruthy cd = false)) ∧
    (∀ cd : CourseData,
      (do_GET cd malformedPat = GetResp.unavailable ↔
        currentTruthy cd = false)) ∧
    (∀ (cd : CourseData) (since : Int),
      (coursesSinceResponse cd since = GetResp.unavailable ↔
        currentTruthy cd = false)) ∧
    (∀ (cd : CourseData) (since it : Int) (c : Course) (cs : List Course)
        (idx : Index) (ml : List Value),
      cd.current = some (c :: cs) → cd.initial_timestamp = some it →
      cd.index = some idx → cd.malformed = some ml →
      (since ≥ it → coursesSinceResponse cd since
        = GetResp.sinceIncremental (compute_diff cd.updates idx since)
            cd.timestamp ml.length) ∧
      (since < it → coursesSinceResponse cd since
        = GetResp.sinceFull (c :: cs) cd.timestamp ml.length)) := by
  refine ⟨?_, ?_, ?_, ?_⟩
  · intro cd
    rw [do_GET_allCoursesRoute]
    cases hc : cd.current with
    | none => simp [allCoursesResponse, currentTruthy, hc]
    | some l =>
      cases l with
      | nil => simp [allCoursesResponse, currentTruthy, hc]
      | cons c cs =>
        cases hm : cd.malformed with
        | none => simp [allCoursesResponse, currentTruthy, hc, hm]
        | some m => simp [allCoursesResponse, currentTruthy, hc, hm]
  · intro cd
    rw [do_GET_malformedRoute]
    cases hc : cd.current with
    | none => simp [malformedResponse, currentTruthy, hc]
    | some l =>
      cases l with
      | nil => simp [malformedResponse, currentTruthy, hc]
      | cons c cs =>
        cases hm : cd.malformed with
        | none => simp [malformedResponse, currentTruthy, hc, hm]
        | some m => simp [malformedResponse, currentTruthy, hc, hm]
  · intro cd since
    cases hc : cd.current with
    | none => simp [coursesSinceResponse, currentTruthy, hc]
    | some l =>
      cases l with
      | nil => simp [coursesSinceResponse, currentTruthy, hc]
      | cons c cs =>
        cases hit : cd.initial_timestamp with
        | none => simp [coursesSinceResponse, currentTruthy, hc, hit]
        | some it =>
          simp only [coursesSinceResponse, currentTruthy, hc, hit]
          split_ifs with hge
          · cases hidx : cd.index with
            | none => simp [hidx]
            | some idx =>
              cases hm : cd.malformed with
              | none => simp [hidx, hm]
              | some m => simp [hidx, hm]
          · cases hm : cd.malformed with
            | none => simp [hm]
            | some m => simp [hm]
  · intro cd since it c cs idx ml hc hit hidx hml
    constructor
    · intro hge
      simp [coursesSinceResponse, hc, hit, hidx, hml, hge]
    · intro hlt
      simp [coursesSinceResponse, hc, hit, hidx, hml, Int.not_le.mpr hlt]

/-- C4, witness for the amended theorem: a concrete store produced by one
successful refresh with one course at timestamp 100, queried at
`since = 100`. -/
theorem claim_C4_witness :
    ((update_course_data INITIAL_COURSE_DATA 100 [cIntro] idxA []).current
        = some [cIntro] ∧
     (update_course_data INITIAL_COURSE_DATA 100 [cIntro] idxA
        []).initial_timestamp = some 100 ∧
     (update_course_data INITIAL_COURSE_DATA 100 [cIntro] idxA []).index
        = some idxA ∧
     (update_course_data INITIAL_COURSE_DATA 100 [cIntro] idxA
        []).malformed = some []) ∧
    (((100:Int) ≥ 100 →
      coursesSinceResponse
          (update_course_data INITIAL_COURSE_DATA 100 [cIntro] idxA []) 100
        = GetResp.sinceIncremental
            (compute_diff
              (update_course_data INITIAL_COURSE_DATA 100 [cIntro] idxA
                []).updates idxA 100)
            (update_course_data INITIAL_COURSE_DATA 100 [cIntro] idxA
              []).timestamp ([] : List Value).length) ∧
     ((100:Int) < 100 →
      coursesSinceResponse
          (update_course_data INITIAL_COURSE_DATA 100 [cIntro] idxA []) 100
        = GetResp.sinceFull [cIntro]
            (update_course_data INITIAL_COURSE_DATA 100 [cIntro] idxA
              []).timestamp ([] : List Value).length)) :=
  ⟨⟨rfl, rfl, rfl, rfl⟩,
   claim_C4_amended.2.2.2
     (update_course_data INITIAL_COURSE_DATA 100 [cIntro] idxA [])
     100 100 cIntro [] idxA [] rfl rfl rfl rfl⟩

/-- C8, counterexample: a courses-since request whose timestamp parameter
is the string "abc" is answered with 404 Not Found, not with the
bad-request error the claim demands — the route's regex `([-0-9]+)` does
not match "abc", so the request falls through every route. -/
theorem claim_C8_counterexample :
    do_GET INITIAL_COURSE_DATA ("/api/v2/courses-since/abc".toList)
        = GetResp.notFound ∧
    GetResp.notFound ≠ GetResp.badRequest := by decide

/-- C8, amended: a courses-since request whose timestamp segment consists
of `[-0-9]` characters but is not parsable as an integer (e.g. "1-2") is
answered with a bad-request client error; a parameter with no leading
`[-0-9]` characters (e.g. "abc") makes the route itself not match, so the
server answers 404 instead.  The GET handler never mutates the store in
either case (it is embedded as a pure function of the store state). -/
theorem claim_C8_amended (cd : CourseData) (s : List Char)
    (hchars : ∀ c ∈ s, isTsChar c = true) (hne : s ≠ [])
    (hbad : pyInt s = none) :
    do_GET cd (sincePat ++ s) = GetResp.badRequest := by
  rw [do_GET_sinceRoute cd s hchars hne, hbad]

/-- C8, witness for the amended theorem: the parameter "1-2" is made of
`[-0-9]` characters but `int()` rejects it. -/
theorem claim_C8_witness :
    ((∀ c ∈ ("1-2".toList), isTsChar c = true) ∧ "1-2".toList ≠ [] ∧
      pyInt ("1-2".toList) = none) ∧
    do_GET INITIAL_COURSE_DATA (sincePat ++ "1-2".toList)
      = GetResp.badRequest :=
  ⟨⟨by decide, by decide, by decide⟩,
   claim_C8_amended INITIAL_COURSE_DATA ("1-2".toList) (by decide)
     (by decide) (by decide)⟩

/-- C9: the reset handler rebinds `course_data` to the
`INITIAL_COURSE_DATA` dict without copying it, so a refresh after a reset
mutates the template itself; a later reset then restores the *mutated*
template and the store is no longer uninitialized.  Concretely, after the
operation sequence reset, successful refresh at t=100 with one course,
reset, the store's `current` is still the refreshed course list instead of
the unset value — the code contradicts the claim (and its own deep-copied
initialization at module load). -/
theorem claim_C9_reset_aliasing :
    (serverReset (serverRefresh (serverReset serverInit)
        ⟨100, [cIntro], idxA, []⟩)).data.current = some [cIntro] ∧
    INITIAL_COURSE_DATA.current = none := by decide

/-! ## Helper lemmas for the deduplicator and indexer -/

theorem getD_set_ne {α : Type} (l : List α) (i j : Nat) (a d : α)
    (h : i ≠ j) : (l.set i a).getD j d = l.getD j d := by
  rw [List.getD_eq_getElem?_getD, List.getElem?_set_ne h,
    ← List.getD_eq_getElem?_getD]

theorem assignFold_getD (zs : List (Nat × String)) (cur : List Course)
    (p : Nat) (h : ∀ z ∈ zs, z.1 ≠ p) :
    ((zs.foldl
      (fun l pr => l.set pr.1 (setSuffix (l.getD pr.1 default) pr.2))
      cur)).getD p default = cur.getD p default := by
  induction zs generalizing cur with
  | nil => rfl
  | cons z rest ih =>
    rw [List.foldl_cons,
      ih _ (fun z' hz' => h z' (List.mem_cons_of_mem z hz')),
      getD_set_ne _ _ _ _ _ (h z (List.mem_cons_self z rest))]

theorem assignFold_length (zs : List (Nat × String)) (cur : List Course) :
    ((zs.foldl
      (fun l pr => l.set pr.1 (setSuffix (l.getD pr.1 default) pr.2))
      cur)).length = cur.length := by
  induction zs generalizing cur with
  | nil => rfl
  | cons z rest ih => rw [List.foldl_cons, ih, List.length_set]

theorem assignLetters_getD (cur : List Course) (ps : List Nat) (p : Nat)
    (h : p ∉ ps) :
    (assignLetters cur ps).getD p default = cur.getD p default := by
  unfold assignLetters
  apply assignFold_getD
  intro z hz hzp
  exact h (hzp ▸ (List.of_mem_zip hz).1)

theorem dedupGo_length (gl : List (Key × List Nat)) (cur : List Course) :
    (dedupGo cur gl).1.length = cur.length := by
  induction gl generalizing cur with
  | nil => rfl
  | cons g rest ih =>
    obtain ⟨k, ps⟩ := g
    simp only [dedupGo]
    split_ifs with h1
    · cases hf : (ps.map fun q => cur.getD q default).find?
          (fun c => Value.truthy (c Attr.courseCodeSuffix)) with
      | some c => simp [hf]
      | none =>
        simp only [hf]
        rw [ih]
        unfold assignLetters
        exact assignFold_length _ _
    · exact ih cur

theorem dedupGo_getD (gl : List (Key × List Nat)) (cur : List Course)
    (p : Nat)
    (h : ∀ g ∈ gl, ∀ z ∈ g.2.zip asciiUppercase, z.1 ≠ p) :
    (dedupGo cur gl).1.getD p default = cur.getD p default := by
  induction gl generalizing cur with
  | nil => rfl
  | cons g rest ih =>
    obtain ⟨k, ps⟩ := g
    simp only [dedupGo]
    split_ifs with h1
    · cases hf : (ps.map fun q => cur.getD q default).find?
          (fun c => Value.truthy (c Attr.courseCodeSuffix)) with
      | some c => simp [hf]
      | none =>
        simp only [hf]
        rw [ih _ (fun g' hg' => h g' (List.mem_cons_of_mem _ hg'))]
        unfold assignLetters
        exact assignFold_getD _ _ _ (h (k, ps) (List.mem_cons_self _ _))
    · exact ih cur (fun g' hg' => h g' (List.mem_cons_of_mem _ hg'))

theorem keysInOrder_nodup (courses : List Course) :
    (keysInOrder courses).Nodup := by
  suffices h : ∀ (l : List Course) (acc : List Key), acc.Nodup →
      (l.foldl
        (fun acc c =>
          if course_to_index_key c ∈ acc then acc
          else acc ++ [course_to_index_key c])
        acc).Nodup from h courses [] List.nodup_nil
  intro l
  induction l with
  | nil => exact fun acc h => h
  | cons c rest ih =>
    intro acc hacc
    rw [List.foldl_cons]
    by_cases hk : course_to_index_key c ∈ acc
    · rw [if_pos hk]
      exact ih acc hacc
    · rw [if_neg hk]
      refine ih _ ?_
      simp [List.nodup_append, hacc, hk]

theorem mem_groupPositions {courses : List Course} {k : Key} {p : Nat} :
    p ∈ groupPositions courses k ↔ p < courses.length ∧
      course_to_index_key (courses.getD p default) = k := by
  simp [groupPositions, List.mem_filter, List.mem_range]

theorem groupPositions_nodup (courses : List Course) (k : Key) :
    (groupPositions courses k).Nodup :=
  (List.nodup_range courses.length).filter _

theorem dedupGroups_pairwise (courses : List Course) :
    (dedupGroups courses).Pairwise (fun g g' => ∀ p ∈ g.2, p ∉ g'.2) := by
  unfold dedupGroups
  refine List.Pairwise.map _ ?_ (keysInOrder_nodup courses)
  intro k1 k2 hne p hp hp2
  rw [mem_groupPositions] at hp hp2
  exact hne (hp.2.symm.trans hp2.2)

theorem dedupGroups_not_touch_late (courses : List Course) (k : Key)
    (j : Nat) (h26 : 26 ≤ j) (hj : j < (groupPositions courses k).length) :
    ∀ g ∈ dedupGroups courses, ∀ z ∈ g.2.zip asciiUppercase,
      z.1 ≠ (groupPositions courses k).getD j 0 := by
  intro g hg z hz
  obtain ⟨k', _, rfl⟩ := List.mem_map.mp hg
  have hpmem : (groupPositions courses k).getD j 0
      ∈ groupPositions courses k := by
    rw [List.getD_eq_getElem _ _ hj]
    exact List.getElem_mem hj
  by_cases hkk : k' = k
  · subst hkk
    intro heq
    obtain ⟨i, hi, hzi⟩ := List.mem_iff_getElem.mp hz
    have hilt : i < 26 := by
      rw [List.length_zip] at hi
      have hl : asciiUppercase.length = 26 := by decide
      rw [hl] at hi
      exact (lt_min_iff.mp hi).2
    have hilt' : i < (groupPositions courses k').length := by
      rw [List.length_zip] at hi
      exact (lt_min_iff.mp (by simpa using hi)).1
    rw [List.getElem_zip] at hzi
    have hz1 : z.1 = (groupPositions courses k')[i] := by rw [← hzi]
    rw [hz1, List.getD_eq_getElem _ _ hj] at heq
    have := ((groupPositions_nodup courses k').getElem_inj_iff).mp heq
    omega
  · intro heq
    have hz1 : z.1 ∈ groupPositions courses k' := (List.of_mem_zip hz).1
    rw [heq] at hz1
    rw [mem_groupPositions] at hz1 hpmem
    exact hkk (hz1.2.symm.trans hpmem.2)

theorem indexGo_error_of_hit (idx : Index) (l : List Course)
    (h : ∃ c ∈ l, course_to_index_key c ∈ idx.dom) :
    ∃ e, indexGo idx l = .error e := by
  induction l generalizing idx with
  | nil =>
    obtain ⟨c, hc, _⟩ := h
    exact absurd hc (List.not_mem_nil c)
  | cons c rest ih =>
    by_cases hk : course_to_index_key c ∈ idx.dom
    · exact ⟨.duplicateCourse c, by simp [indexGo, hk]⟩
    · obtain ⟨c', hc', hcd⟩ := h
      rcases List.mem_cons.mp hc' with rfl | hc'
      · exact absurd hcd hk
      · obtain ⟨e, he⟩ := ih
          ⟨insert (course_to_index_key c) idx.dom,
            Function.update idx.get (course_to_index_key c) c⟩
          ⟨c', hc', Finset.mem_insert_of_mem hcd⟩
        exact ⟨e, by simp only [indexGo, if_neg hk]; exact he⟩

theorem indexGo_error_of_dup (idx : Index) (l : List Course) (i j : Nat)
    (hij : i < j) (hj : j < l.length)
    (hkey : course_to_index_key (l.getD i default)
      = course_to_index_key (l.getD j default)) :
    ∃ e, indexGo idx l = .error e := by
  induction l generalizing idx i j with
  | nil => simp at hj
  | cons c rest ih =>
    by_cases hk : course_to_index_key c ∈ idx.dom
    · exact ⟨.duplicateCourse c, by simp [indexGo, hk]⟩
    · cases i with
      | zero =>
        cases j with
        | zero => exact absurd hij (lt_irrefl 0)
        | succ j' =>
          have hj' : j' < rest.length := by simpa using hj
          have hkey' : course_to_index_key c
              = course_to_index_key (rest.getD j' default) := by
            simpa [List.getD_cons_succ] using hkey
          obtain ⟨e, he⟩ := indexGo_error_of_hit
            ⟨insert (course_to_index_key c) idx.dom,
              Function.update idx.get (course_to_index_key c) c⟩ rest
            ⟨rest.getD j' default,
              by rw [List.getD_eq_getElem _ _ hj']; exact List.getElem_mem hj',
              by rw [← hkey']; exact Finset.mem_insert_self _ _⟩
          exact ⟨e, by simp only [indexGo, if_neg hk]; exact he⟩
      | succ i' =>
        cases j with
        | zero => exact absurd hij (by omega)
        | succ j' =>
          obtain ⟨e, he⟩ := ih
            ⟨insert (course_to_index_key c) idx.dom,
              Function.update idx.get (course_to_index_key c) c⟩
            i' j' (by omega) (by simpa using hj)
            (by simpa [List.getD_cons_succ] using hkey)
          exact ⟨e, by simp only [indexGo, if_neg hk]; exact he⟩

theorem dedupGo_firstFail (courses : List Course) (k : Key) (ps : List Nat)
    (hsize : 1 < ps.length)
    (hsuf : ∃ p ∈ ps,
      Value.truthy ((courses.getD p default) Attr.courseCodeSuffix) = true) :
    ∀ (gl : List (Key × List Nat)) (cur : List Course) (i : Nat),
      gl.Pairwise (fun g g' => ∀ p ∈ g.2, p ∉ g'.2) →
      (∀ g ∈ gl, ∀ p ∈ g.2,
        cur.getD p default = courses.getD p default) →
      i < gl.length →
      gl.getD i ([], []) = (k, ps) →
      (∀ j < i, ¬(1 < (gl.getD j ([], [])).2.length ∧
        ∃ p ∈ (gl.getD j ([], [])).2,
          Value.truthy ((courses.getD p default) Attr.courseCodeSuffix)
            = true)) →
      (dedupGo cur gl).2.isSome = true ∧
      ∀ p ∈ ps, (dedupGo cur gl).1.getD p default
        = courses.getD p default := by
  intro gl
  induction gl with
  | nil =>
    intro cur i _ _ hi _ _
    simp at hi
  | cons g rest ih =>
    intro cur i hdisj hagree hi hget hfirst
    obtain ⟨k', ps'⟩ := g
    have hdisj' := List.pairwise_cons.mp hdisj
    have hagree_rest : ∀ g ∈ rest, ∀ p ∈ g.2,
        cur.getD p default = courses.getD p default :=
      fun g hg p hp => hagree g (List.mem_cons_of_mem _ hg) p hp
    cases i with
    | zero =>
      rw [List.getD_cons_zero] at hget
      have hk2 : ps' = ps := congrArg Prod.snd hget
      have hsize' : 1 < ps'.length := by rw [hk2]; exact hsize
      have hsuf' : ∃ p ∈ ps',
          Value.truthy ((courses.getD p default) Attr.courseCodeSuffix)
            = true := by rw [hk2]; exact hsuf
      have hfind : ((ps'.map fun q => cur.getD q default).find?
          (fun c => Value.truthy (c Attr.courseCodeSuffix))).isSome
            = true := by
        rw [List.find?_isSome]
        obtain ⟨p, hp, hptr⟩ := hsuf'
        refine ⟨cur.getD p default, List.mem_map_of_mem _ hp, ?_⟩
        rw [hagree (k', ps') (List.mem_cons_self _ _) p hp]
        exact hptr
      obtain ⟨c, hc⟩ := Option.isSome_iff_exists.mp hfind
      constructor
      · simp only [dedupGo, if_pos hsize']
        rw [hc]
        rfl
      · intro p hp
        have hp' : p ∈ ps' := by rw [hk2]; exact hp
        simp only [dedupGo, if_pos hsize']
        rw [hc]
        exact hagree (k', ps') (List.mem_cons_self _ _) p hp'
    | succ i' =>
      rw [List.getD_cons_succ] at hget
      have hi' : i' < rest.length := by simpa using hi
      have hfirst0 := hfirst 0 (Nat.succ_pos i')
      rw [List.getD_cons_zero] at hfirst0
      have hfirst' : ∀ j < i',
          ¬(1 < (rest.getD j ([], [])).2.length ∧
            ∃ p ∈ (rest.getD j ([], [])).2,
              Value.truthy ((courses.getD p default) Attr.courseCodeSuffix)
                = true) := by
        intro j hj
        have := hfirst (j + 1) (by omega)
        rwa [List.getD_cons_succ] at this
      simp only [dedupGo]
      split_ifs with h1
      · have hnone : (ps'.map fun q => cur.getD q default).find?
            (fun c => Value.truthy (c Attr.courseCodeSuffix)) = none := by
          rw [List.find?_eq_none]
          intro x hx
          obtain ⟨p, hp, rfl⟩ := List.mem_map.mp hx
          rw [hagree (k', ps') (List.mem_cons_self _ _) p hp]
          intro htr
          exact hfirst0 ⟨h1, ⟨p, hp, htr⟩⟩
        simp only [hnone]
        refine ih (assignLetters cur ps') i' hdisj'.2 ?_ hi' hget hfirst'
        intro g hg p hp
        have hnot : p ∉ ps' := fun hmem => (hdisj'.1 g hg p hmem) hp
        rw [assignLetters_getD cur ps' p hnot]
        exact hagree g (List.mem_cons_of_mem _ hg) p hp
      · exact ih cur i' hdisj'.2 hagree_rest hi' hget hfirst'

/-- C6, counterexample: in the batch
`[cIntro, cIntroDup, cPsycZ, cPsycZ2]` the second collision group (the
two PSYC records) carries a pre-existing suffix "Z", so deduplication
fails — but the first collision group (the two CS records) was processed
before the failure and had suffix letters assigned, so the batch is *not*
left unmodified. -/
theorem claim_C6_counterexample :
    (deduplicate_course_keys [cIntro, cIntroDup, cPsycZ, cPsycZ2]).2.isSome
      = true ∧
    (deduplicate_course_keys [cIntro, cIntroDup, cPsycZ, cPsycZ2]).1
      ≠ [cIntro, cIntroDup, cPsycZ, cPsycZ2] := by decide

/-- C6, amended: when the first (in key first-occurrence order) collision
group with a suffixed member sits at index `i` of the group list,
deduplication fails with a disambiguation error and every record of that
failing group is left unmodified; collision groups processed before it may
already have been assigned suffix letters (see the counterexample). -/
theorem claim_C6_amended (courses : List Course) (i : Nat) (k : Key)
    (ps : List Nat)
    (hi : i < (dedupGroups courses).length)
    (hget : (dedupGroups courses).getD i ([], []) = (k, ps))
    (hsize : 1 < ps.length)
    (hsuf : ∃ p ∈ ps,
      Value.truthy ((courses.getD p default) Attr.courseCodeSuffix) = true)
    (hfirst : ∀ j < i, ¬(1 < ((dedupGroups courses).getD j ([], [])).2.length ∧
      ∃ p ∈ ((dedupGroups courses).getD j ([], [])).2,
        Value.truthy ((courses.getD p default) Attr.courseCodeSuffix)
          = true)) :
    (deduplicate_course_keys courses).2.isSome = true ∧
    ∀ p ∈ ps, (deduplicate_course_keys courses).1.getD p default
      = courses.getD p default := by
  exact dedupGo_firstFail courses k ps hsize hsuf (dedupGroups courses)
    courses i (dedupGroups_pairwise courses) (fun _ _ _ _ => rfl) hi hget
    hfirst

/-- C6, witness for the amended theorem: in the concrete batch of the
counterexample the failing group is the PSYC group at index 1. -/
theorem claim_C6_witness :
    ((1 < (dedupGroups [cIntro, cIntroDup, cPsycZ, cPsycZ2]).length) ∧
     ((dedupGroups [cIntro, cIntroDup, cPsycZ, cPsycZ2]).getD 1 ([], [])
        = (course_to_index_key cPsycZ,
           groupPositions [cIntro, cIntroDup, cPsycZ, cPsycZ2]
             (course_to_index_key cPsycZ))) ∧
     (1 < (groupPositions [cIntro, cIntroDup, cPsycZ, cPsycZ2]
        (course_to_index_key cPsycZ)).length) ∧
     (∃ p ∈ groupPositions [cIntro, cIntroDup, cPsycZ, cPsycZ2]
          (course_to_index_key cPsycZ),
        Value.truthy
          (([cIntro, cIntroDup, cPsycZ, cPsycZ2].getD p default)
            Attr.courseCodeSuffix) = true) ∧
     (∀ j < 1,
       ¬(1 < ((dedupGroups [cIntro, cIntroDup, cPsycZ, cPsycZ2]).getD j
            ([], [])).2.length ∧
         ∃ p ∈ ((dedupGroups [cIntro, cIntroDup, cPsycZ, cPsycZ2]).getD j
            ([], [])).2,
           Value.truthy
             (([cIntro, cIntroDup, cPsycZ, cPsycZ2].getD p default)
               Attr.courseCodeSuffix) = true))) ∧
    ((deduplicate_course_keys [cIntro, cIntroDup, cPsycZ, cPsycZ2]).2.isSome
        = true ∧
     ∀ p ∈ groupPositions [cIntro, cIntroDup, cPsycZ, cPsycZ2]
          (course_to_index_key cPsycZ),
       (deduplicate_course_keys
         [cIntro, cIntroDup, cPsycZ, cPsycZ2]).1.getD p default
         = [cIntro, cIntroDup, cPsycZ, cPsycZ2].getD p default) :=
  ⟨⟨by decide, by decide, by decide, by decide, by decide⟩,
   claim_C6_amended [cIntro, cIntroDup, cPsycZ, cPsycZ2] 1
     (course_to_index_key cPsycZ)
     (groupPositions [cIntro, cIntroDup, cPsycZ, cPsycZ2]
       (course_to_index_key cPsycZ))
     (by decide) (by decide) (by decide) (by decide) (by decide)⟩

/-- C7, counterexample: a batch of exactly 27 records sharing one identity
key, none with a pre-existing suffix, makes the deduplicate-then-index
pipeline *succeed silently*: `zip` pairs only the first 26 records with
letters, the 27th keeps its empty suffix, and the resulting 27 keys are
all distinct, so `index_courses` raises nothing. -/
theorem claim_C7_counterexample :
    26 < (groupPositions (List.replicate 27 cIntro) k0).length ∧
    (∀ p ∈ groupPositions (List.replicate 27 cIntro) k0,
      Value.truthy
        (((List.replicate 27 cIntro).getD p default)
          Attr.courseCodeSuffix) = false) ∧
    (index_courses (List.replicate 27 cIntro)).isOk = true := by decide

/-- C7, amended: for every batch containing a group of more than 27
records sharing one identity key, none of which has a truthy pre-existing
suffix, the deduplicate-then-index pipeline fails with an error: records
27 and beyond of the group keep their empty suffix, so at least two
identical keys survive deduplication and the indexer reports the residual
collision (with exactly 27 such records the pipeline instead succeeds
silently — see the counterexample). -/
theorem claim_C7_amended (courses : List Course) (k : Key)
    (hbig : 27 < (groupPositions courses k).length)
    (hnosuf : ∀ p ∈ groupPositions courses k,
      Value.truthy ((courses.getD p default) Attr.courseCodeSuffix)
        = false) :
    ∃ e, index_courses courses = Except.error e := by
  rcases hd : deduplicate_course_keys courses with ⟨l', err⟩
  cases err with
  | some e =>
    refine ⟨e, ?_⟩
    unfold index_courses
    rw [hd]
  | none =>
    have h26 : 26 < (groupPositions courses k).length := by omega
    have hpmem : (groupPositions courses k).getD 26 0
        ∈ groupPositions courses k := by
      rw [List.getD_eq_getElem _ _ h26]
      exact List.getElem_mem h26
    have hqmem : (groupPositions courses k).getD 27 0
        ∈ groupPositions courses k := by
      rw [List.getD_eq_getElem _ _ hbig]
      exact List.getElem_mem hbig
    have hpq : (groupPositions courses k).getD 26 0
        ≠ (groupPositions courses k).getD 27 0 := by
      rw [List.getD_eq_getElem _ _ h26, List.getD_eq_getElem _ _ hbig]
      intro heq
      have := ((groupPositions_nodup courses k).getElem_inj_iff).mp heq
      omega
    have hl' : l' = (deduplicate_course_keys courses).1 := by rw [hd]
    have huntouched : ∀ j (hj : j < (groupPositions courses k).length),
        26 ≤ j →
        l'.getD ((groupPositions courses k).getD j 0) default
          = courses.getD ((groupPositions courses k).getD j 0) default := by
      intro j hj h26j
      rw [hl']
      exact dedupGo_getD _ _ _
        (dedupGroups_not_touch_late courses k j h26j hj)
    have hlen : l'.length = courses.length := by
      rw [hl']
      exact dedupGo_length _ _
    obtain ⟨hplt, hpkey⟩ := mem_groupPositions.mp hpmem
    obtain ⟨hqlt, hqkey⟩ := mem_groupPositions.mp hqmem
    have hkl : course_to_index_key
        (l'.getD ((groupPositions courses k).getD 26 0) default)
          = course_to_index_key
            (l'.getD ((groupPositions courses k).getD 27 0) default) := by
      rw [huntouched 26 h26 (by omega), huntouched 27 hbig (by omega),
        hpkey, hqkey]
    have hplt' : (groupPositions courses k).getD 26 0 < l'.length := by
      rw [hlen]; exact hplt
    have hqlt' : (groupPositions courses k).getD 27 0 < l'.length := by
      rw [hlen]; exact hqlt
    rcases Nat.lt_or_ge ((groupPositions courses k).getD 26 0)
        ((groupPositions courses k).getD 27 0) with hlt | hge
    · obtain ⟨e, he⟩ := indexGo_error_of_dup emptyIndex l' _ _ hlt hqlt' hkl
      refine ⟨e, ?_⟩
      unfold index_courses
      rw [hd]
      exact he
    · have hlt : (groupPositions courses k).getD 27 0
          < (groupPositions courses k).getD 26 0 :=
        Nat.lt_of_le_of_ne hge (fun hh => hpq hh.symm)
      obtain ⟨e, he⟩ := indexGo_error_of_dup emptyIndex l' _ _ hlt hplt'
        hkl.symm
      refine ⟨e, ?_⟩
      unfold index_courses
      rw [hd]
      exact he

/-- C7, witness for the amended theorem: a batch of 28 identical records
with no pre-existing suffix. -/
theorem claim_C7_witness :
    (27 < (groupPositions (List.replicate 28 cIntro) k0).length ∧
     (∀ p ∈ groupPositions (List.replicate 28 cIntro) k0,
       Value.truthy
         (((List.replicate 28 cIntro).getD p default)
           Attr.courseCodeSuffix) = false)) ∧
    (∃ e, index_courses (List.replicate 28 cIntro) = Except.error e) :=
  ⟨⟨by decide, by decide⟩,
   claim_C7_amended (List.replicate 28 cIntro) k0 (by decide) (by decide)⟩

end Hyperschedule
